import Mathlib

/-!
# Verification development for `fibonachos.py`

Shallow embedding of the single source file `src/fibonachos.py`:

* the edge-letter spelling function `end_letters`,
* the rolling Fibonacci window (`FibSub.seed` / `FibSub.__next__`),
* the lexical predicate `lexical`,
* the search controller `LexicalTuples.find_all`,

together with a spec-side canonical spelling function (`spell`) used to
compare the code's edge letters against the specified English spelling.

Machine integers are modelled as `Nat` (all numbers handled by the program
are non-negative); Python exceptions are modelled by `Option` (`none` =
an exception was raised).  Wall-clock time (`Times.up`) is modelled as an
arbitrary Boolean predicate of the iteration count.
-/

/-- First character of a string; Python `s[0]` (our strings are nonempty
whenever this is used, so the default is never returned). -/
def strFirst (s : String) : Char := (s.data.head?).getD '?'

/-- Last character of a string; Python `s[-1]`. -/
def strLast (s : String) : Char := (s.data.getLast?).getD '?'

/-- The `digits` dictionary of the source: names of 1–9.
`none` models a Python `KeyError` for keys outside the table. -/
def digitsTab (n : Nat) : Option String :=
  if n = 1 then some "one"
  else if n = 2 then some "two"
  else if n = 3 then some "three"
  else if n = 4 then some "four"
  else if n = 5 then some "five"
  else if n = 6 then some "six"
  else if n = 7 then some "seven"
  else if n = 8 then some "eight"
  else if n = 9 then some "nine"
  else none

/-- The `teens` dictionary of the source: names of 11–19 (note the
source's literal spelling `"eightteen"` for 18). -/
def teensTab (n : Nat) : Option String :=
  if n = 11 then some "eleven"
  else if n = 12 then some "twelve"
  else if n = 13 then some "thirteen"
  else if n = 14 then some "fourteen"
  else if n = 15 then some "fifteen"
  else if n = 16 then some "sixteen"
  else if n = 17 then some "seventeen"
  else if n = 18 then some "eightteen"
  else if n = 19 then some "nineteen"
  else none

/-- `special = {**digits, **teens}` (the two key sets are disjoint). -/
def specialTab (n : Nat) : Option String :=
  match digitsTab n with
  | some s => some s
  | none => teensTab n

/-- Decimal digit count, structurally recursive on a fuel argument
(the fuel is the number itself, which always suffices since each step
divides by 10). -/
def numDigitsCore : Nat → Nat → Nat
  | 0, _ => 1
  | f + 1, n => if n < 10 then 1 else numDigitsCore f (n / 10) + 1

/-- `len(str(n))` for a non-negative integer `n`. -/
def numDigits (n : Nat) : Nat := numDigitsCore n n

/-- The source's `end_letters`, with an explicit fuel bounding the
recursion depth.  All recursive calls are made on numbers `< 1000`
(`leading` has at most 3 digits, `hundreds = n % 1000`), and those make
at most one further call on a number `< 100`, so fuel 3 is always
enough (proved below).  For `n ≥ 1000`, `str(n)[-3:]` is `n % 1000`,
`m = min(3, len(str(n)) - 3)`, and `str(n)[:m]` is `n / 10 ^ (d - m)`
where `d = len(str(n))`.  A `none` result models a raised exception or
exhausted fuel. -/
def endLettersAux : Nat → Nat → Option (Char × Char)
  | 0, _ => none
  | f + 1, n =>
    if n = 0 then some ('z', 'o')
    else
      match specialTab n with
      | some s => some (strFirst s, strLast s)
      | none =>
        if n = 10 then some ('t', 'n')
        else if 20 ≤ n ∧ n ≤ 99 then
          match digitsTab (n / 10) with
          | none => none
          | some tens =>
            if n % 10 = 0 then some (strFirst tens, 'y')
            else
              match digitsTab (n % 10) with
              | none => none
              | some ones => some (strFirst tens, strLast ones)
        else if 100 ≤ n ∧ n ≤ 999 then
          match digitsTab (n / 100) with
          | none => none
          | some hd =>
            if n % 100 = 0 then some (strFirst hd, 'd')
            else
              match endLettersAux f (n % 100) with
              | none => none
              | some p => some (strFirst hd, p.2)
        else
          let d := numDigits n
          let hundreds := n % 1000
          let m := min 3 (d - 3)
          let leading := n / 10 ^ (d - m)
          match endLettersAux f leading with
          | none => none
          | some pl =>
            if hundreds = 0 then
              some (pl.1, if 1000 ≤ n ∧ n ≤ 999999 then 'd' else 'n')
            else
              match endLettersAux f hundreds with
              | none => none
              | some ph => some (pl.1, ph.2)

/-- `end_letters(n)` of the source (fuel 3 suffices; see
`endLettersAux_fuel`). -/
def end_letters (n : Nat) : Option (Char × Char) := endLettersAux 3 n

/-! ## Spec-side canonical spelling

The source file contains no `spell` function, only `end_letters`; the
spec, however, specifies `spell` fully (§4.1).  For the refinement claim
(`edge_letters(n) = (spell(n)[0], spell(n)[-1])`) we therefore define a
second, clearly separated function following the spec's words.

Modelled from the spec: the canonical English word spelling of a
non-negative integer, with the scale table hundred=2, thousand=3,
million=6, billion=9, trillion=12 (the scales listed by the spec); each
scale order `b ≥ 3` covers orders `b..b+2` (the spec's "greatest scale
order ≤ the order", with scale boundaries spaced at most 3 apart);
orders beyond the largest configured scale name are a reported error
("magnitude not recognized"), modelled as `none`. -/

/-- Modelled from the spec: fixed names of the digits 1–9. -/
def onesName (n : Nat) : String :=
  if n = 1 then "one"
  else if n = 2 then "two"
  else if n = 3 then "three"
  else if n = 4 then "four"
  else if n = 5 then "five"
  else if n = 6 then "six"
  else if n = 7 then "seven"
  else if n = 8 then "eight"
  else "nine"

/-- Modelled from the spec: fixed irregular names of 11–19, preserving
the source's literal `"eightteen"` for 18 as the behavioural contract. -/
def teenName (n : Nat) : String :=
  if n = 11 then "eleven"
  else if n = 12 then "twelve"
  else if n = 13 then "thirteen"
  else if n = 14 then "fourteen"
  else if n = 15 then "fifteen"
  else if n = 16 then "sixteen"
  else if n = 17 then "seventeen"
  else if n = 18 then "eightteen"
  else "nineteen"

/-- Modelled from the spec: fixed tens names, indexed by the tens digit
(1 → "ten", 2 → "twenty", …, 9 → "ninety"). -/
def tensName (n : Nat) : String :=
  if n = 1 then "ten"
  else if n = 2 then "twenty"
  else if n = 3 then "thirty"
  else if n = 4 then "forty"
  else if n = 5 then "fifty"
  else if n = 6 then "sixty"
  else if n = 7 then "seventy"
  else if n = 8 then "eighty"
  else "ninety"

/-- Modelled from the spec: fixed irregular names of 0–20. -/
def smallName (n : Nat) : String :=
  if n = 0 then "zero"
  else if n ≤ 9 then onesName n
  else if n = 10 then "ten"
  else if n ≤ 19 then teenName n
  else "twenty"

/-- Modelled from the spec: the scale-name table. -/
def scaleName (b : Nat) : String :=
  if b = 2 then "hundred"
  else if b = 3 then "thousand"
  else if b = 6 then "million"
  else if b = 9 then "billion"
  else "trillion"

/-- Modelled from the spec: the greatest scale order `≤ order` used to
decompose a number of the given order of magnitude (`order ≥ 3`);
`none` when the magnitude is beyond the largest configured scale name. -/
def boundaryFor (order : Nat) : Option Nat :=
  if 3 ≤ order ∧ order ≤ 5 then some 3
  else if 6 ≤ order ∧ order ≤ 8 then some 6
  else if 9 ≤ order ∧ order ≤ 11 then some 9
  else if 12 ≤ order ∧ order ≤ 14 then some 12
  else none

/-- Modelled from the spec: `spell(n)`, fuel-structural.  The recursion
depth is bounded by 8 for every representable magnitude (each step at a
scale boundary `b` recurses on numbers below `10 ^ b`, descending
through the scale table), so the wrapper `spell` uses fuel 8. -/
def spellAux : Nat → Nat → Option String
  | 0, _ => none
  | f + 1, n =>
    if n ≤ 20 then some (smallName n)
    else if n ≤ 99 then
      if n % 10 = 0 then some (tensName (n / 10))
      else some (tensName (n / 10) ++ "-" ++ onesName (n % 10))
    else if n ≤ 999 then
      let head := onesName (n / 100) ++ "-hundred"
      if n % 100 = 0 then some head
      else
        match spellAux f (n % 100) with
        | none => none
        | some r => some (head ++ " " ++ r)
    else
      let order := numDigits n - 1
      match boundaryFor order with
      | none => none
      | some b =>
        match spellAux f (n / 10 ^ b) with
        | none => none
        | some ls =>
          let head := ls ++ "-" ++ scaleName b
          if n % 10 ^ b = 0 then some head
          else
            match spellAux f (n % 10 ^ b) with
            | none => none
            | some r => some (head ++ " " ++ r)

/-- Modelled from the spec: `spell(n)` (fuel 8 suffices for every
magnitude the scale table can represent). -/
def spell (n : Nat) : Option String := spellAux 8 n

/-! ## The rolling Fibonacci window (`FibSub`) -/

/-- Python negative indexing: `l[-k]` (for `k ≥ 1`), raising
(`none`) when `k` exceeds the list length. -/
def negIdx (l : List Nat) (k : Nat) : Option Nat :=
  if 1 ≤ k ∧ k ≤ l.length then l.get? (l.length - k) else none

/-- `FibSub.__next__`: `value = _subseq[-2] + _subseq[-1]` followed by
`_subseq[1:] + [value]`.  `none` models the `IndexError` raised when
the window has fewer than two elements. -/
def fibNext (w : List Nat) : Option (List Nat) :=
  match negIdx w 2, negIdx w 1 with
  | some x, some y => some (w.drop 1 ++ [x + y])
  | _, _ => none

/-- The body of the `while` loop in `FibSub.seed` run `k` times: each
iteration appends `sum(values[-2:])`.  The loop guard
`len(values) < length` holds for exactly `(length - len(values))⁺`
iterations because each pass grows the list by one element, so the
wrapper below calls this with that count. -/
def seedLoop : List Nat → Nat → List Nat
  | values, 0 => values
  | values, k + 1 => seedLoop (values ++ [(values.drop (values.length - 2)).sum]) k

/-- `FibSub.seed`: the first `length` Fibonacci values.  The requested
length is an arbitrary Python integer, hence `Int`. -/
def seed (length : Int) : List Nat :=
  if length = 1 then [0]
  else if length = 2 then [0, 1]
  else seedLoop [0, 1] (length - 2).toNat

/-- `k` successive advances of a window (`none` as soon as one raises). -/
def advanceN (w : List Nat) : Nat → Option (List Nat)
  | 0 => some w
  | k + 1 =>
    match fibNext w with
    | none => none
    | some w2 => advanceN w2 k

/-- The Fibonacci recurrence invariant of a window: every element
beyond index 1 is the sum of the two preceding elements. -/
def fibInv (w : List Nat) : Prop :=
  ∀ i, i + 2 < w.length → w.getD (i + 2) 0 = w.getD i 0 + w.getD (i + 1) 0

/-! ## A small heap model for the mutation claim

`FibSub.__next__` executes `self._subseq = self._subseq[1:] + [value]`:
the slice and the concatenation each build a *new* list, and the
attribute is re-bound to the freshly allocated one.  To state that the
input window is not mutated we model Python lists as numbered heap
cells: the operation reads the cell holding the current window and
allocates a new cell for the successor window. -/

structure PyHeap where
  cells : List (List Nat)
deriving DecidableEq

/-- Dereference a list address. -/
def readCell (h : PyHeap) (a : Nat) : Option (List Nat) := h.cells.get? a

/-- `FibSub.__next__` at the heap level: read the window at address
`a`, build `_subseq[1:] + [value]` as a fresh cell, return the new heap
and the new window's address.  `none` models the `IndexError`. -/
def nextAlloc (h : PyHeap) (a : Nat) : Option (PyHeap × Nat) :=
  match readCell h a with
  | none => none
  | some w =>
    match negIdx w 2, negIdx w 1 with
    | some x, some y => some (⟨h.cells ++ [w.drop 1 ++ [x + y]]⟩, h.cells.length)
    | _, _ => none

/-! ## The lexical predicate -/

/-- The list comprehension `[end_letters(i) for i in seq]`; the first
raised exception propagates (`none`). -/
def mapEnds : List Nat → Option (List (Char × Char))
  | [] => some []
  | x :: xs =>
    match end_letters x with
    | none => none
    | some p =>
      match mapEnds xs with
      | none => none
      | some ps => some (p :: ps)

/-- The source's `lexical(seq)`:
`all(ends[i][-1] == ends[i+1][0] for i in range(len(ends)-1))`. -/
def lexical (seq : List Nat) : Option Bool :=
  match mapEnds seq with
  | none => none
  | some ends =>
    some ((List.range (ends.length - 1)).all fun i =>
      (ends.getD i ('?', '?')).2 == (ends.getD (i + 1) ('?', '?')).1)

/-! ## The search controller (`LexicalTuples.find_all`) -/

structure SearchState where
  tuples : List (List Nat)
  highest : Nat
  window : List Nat
deriving DecidableEq

/-- `LexicalTuples.satisfied`: Python `not self.max_num` is true for
both `None` and `0`, in which case the search is never satisfied;
otherwise it requires `len(self.tuples) >= self.max_num`. -/
def satisfiedB (maxNum : Option Int) (tuples : List (List Nat)) : Bool :=
  match maxNum with
  | none => false
  | some m => if m = 0 then false else (tuples.length : Int) ≥ m

/-- One body of the `while` loop in `find_all`:
`self.highest = max(subseq)`, the lexical test with its append, and
`subseq = next(subseq)`.  Each `match` propagates the exception its
Python expression could raise, in evaluation order. -/
def findStep (st : SearchState) : Option SearchState :=
  match st.window.max? with
  | none => none
  | some hi =>
    match lexical st.window with
    | none => none
    | some b =>
      match fibNext st.window with
      | none => none
      | some w2 =>
        some ⟨if b then st.tuples ++ [st.window] else st.tuples, hi, w2⟩

/-- The `while not self.satisfied and not self.times.up` loop of
`find_all`.  `stop i` models `self.times.up` at the `i`-th guard check
(an arbitrary wall-clock predicate; constantly false when
`timeout=None`).  The fuel argument bounds the number of iterations we
unfold; `none` means the loop was still running (or an exception was
raised), `some st` is the state at a normal exit of the loop. -/
def findAllLoop (maxNum : Option Int) (stop : Nat → Bool) :
    Nat → Nat → SearchState → Option SearchState
  | 0, _, _ => none
  | f + 1, i, st =>
    if satisfiedB maxNum st.tuples ∨ stop i then some st
    else
      match findStep st with
      | none => none
      | some st2 => findAllLoop maxNum stop f (i + 1) st2

/-- `LexicalTuples(max_num, timeout).find_all(length)`: the controller
starts from `tuples = []`, `highest = 0` and the seeded window. -/
def findAll (length : Int) (maxNum : Option Int) (stop : Nat → Bool)
    (fuel : Nat) : Option SearchState :=
  findAllLoop maxNum stop fuel 0 ⟨[], 0, seed length⟩

/-! ## Decidable facts over the small range `n < 1000` -/

/-- A returned edge-letter pair whose components are both lowercase
letters of the alphabet. -/
def goodPair : Option (Char × Char) → Bool
  | some p => p.1.isLower && p.2.isLower
  | none => false

/-- `spell` and `end_letters` both succeed on `n` with a nonempty word
whose first and last characters are the returned edge letters. -/
def agreeB (n : Nat) : Bool :=
  match spellAux 8 n, endLettersAux 3 n with
  | some s, some p => !s.data.isEmpty && (strFirst s == p.1) && (strLast s == p.2)
  | _, _ => false

set_option maxRecDepth 100000

theorem el_small_good : ∀ n, n < 1000 → goodPair (endLettersAux 2 n) = true := by decide

theorem el_fuel_23 : ∀ n, n < 1000 → endLettersAux 3 n = endLettersAux 2 n := by decide

theorem agree_small : ∀ n, n < 1000 → agreeB n = true := by decide

theorem spell_fuel_78 : ∀ n, n < 1000 → spellAux 7 n = spellAux 8 n := by decide

/-! ## Helper lemmas -/

theorem getLast_cons_some (a : Char) (l : List Char) :
    ∃ x, (a :: l).getLast? = some x := by
  induction l generalizing a with
  | nil => exact ⟨a, rfl⟩
  | cons b t ih => rw [List.getLast?_cons_cons]; exact ih b

theorem strFirst_append (s t : String) (h : s.data ≠ []) :
    strFirst (s ++ t) = strFirst s := by
  unfold strFirst
  rw [String.data_append]
  cases hs : s.data with
  | nil => exact absurd hs h
  | cons a l => simp

theorem strLast_append (s t : String) (h : t.data ≠ []) :
    strLast (s ++ t) = strLast t := by
  unfold strLast
  rw [String.data_append, List.getLast?_append]
  cases ht : t.data with
  | nil => exact absurd ht h
  | cons a l =>
    obtain ⟨x, hx⟩ := getLast_cons_some a l
    rw [hx]
    rfl

theorem numDigitsCore_eq_log :
    ∀ f n, n ≤ f → numDigitsCore f n = Nat.log 10 n + 1 := by
  intro f
  induction f with
  | zero =>
    intro n hn
    have : n = 0 := by omega
    subst this
    simp [numDigitsCore, Nat.log_zero_right]
  | succ f ih =>
    intro n hn
    rw [numDigitsCore]
    by_cases h : n < 10
    · rw [if_pos h, Nat.log_eq_zero_iff.mpr (Or.inl h)]
    · rw [if_neg h]
      push_neg at h
      have h10 : n / 10 < n := Nat.div_lt_self (by omega) (by omega)
      rw [ih (n / 10) (by omega)]
      have hpos := Nat.log_pos (b := 10) (by omega) h
      have hdiv := Nat.log_div_base 10 n
      omega

theorem numDigits_eq_log (n : Nat) : numDigits n = Nat.log 10 n + 1 :=
  numDigitsCore_eq_log n n le_rfl

theorem numDigits_eq (k n : Nat) (h1 : 10 ^ k ≤ n) (h2 : n < 10 ^ (k + 1)) :
    numDigits n = k + 1 := by
  rw [numDigits_eq_log, Nat.log_eq_of_pow_le_of_lt_pow h1 h2]

theorem lt_pow_numDigits (n : Nat) : n < 10 ^ numDigits n := by
  rw [numDigits_eq_log]
  exact Nat.lt_pow_succ_log_self (by omega) n

theorem numDigits_ge (n : Nat) (k : Nat) (h : 10 ^ k ≤ n) :
    k + 1 ≤ numDigits n := by
  rw [numDigits_eq_log]
  have hn : n ≠ 0 := by
    have : 1 ≤ 10 ^ k := Nat.one_le_pow _ _ (by omega)
    omega
  have := (Nat.pow_le_iff_le_log (by omega) hn).mp h
  omega

theorem digitsTab_none (n : Nat) (h : 10 ≤ n) : digitsTab n = none := by
  unfold digitsTab
  repeat rw [if_neg (by omega)]

theorem teensTab_none (n : Nat) (h : 20 ≤ n) : teensTab n = none := by
  unfold teensTab
  repeat rw [if_neg (by omega)]

theorem specialTab_none (n : Nat) (h : 20 ≤ n) : specialTab n = none := by
  unfold specialTab
  rw [digitsTab_none n (by omega), teensTab_none n h]

/-- Unfolding `end_letters` in its `n ≥ 1000` branch. -/
theorem endLettersAux_big (f n : Nat) (h : 1000 ≤ n) :
    endLettersAux (f + 1) n =
      match endLettersAux f (n / 10 ^ (numDigits n - min 3 (numDigits n - 3))) with
      | none => none
      | some pl =>
        if n % 1000 = 0 then
          some (pl.1, if 1000 ≤ n ∧ n ≤ 999999 then 'd' else 'n')
        else
          match endLettersAux f (n % 1000) with
          | none => none
          | some ph => some (pl.1, ph.2) := by
  simp only [endLettersAux]
  rw [if_neg (by omega), specialTab_none n (by omega), if_neg (by omega),
    if_neg (by omega), if_neg (by omega)]

/-- Unfolding `spell` in its `n ≥ 1000` branch. -/
theorem spellAux_big (f n : Nat) (h : 1000 ≤ n) :
    spellAux (f + 1) n =
      match boundaryFor (numDigits n - 1) with
      | none => none
      | some b =>
        match spellAux f (n / 10 ^ b) with
        | none => none
        | some ls =>
          if n % 10 ^ b = 0 then some (ls ++ "-" ++ scaleName b)
          else
            match spellAux f (n % 10 ^ b) with
            | none => none
            | some r => some (ls ++ "-" ++ scaleName b ++ " " ++ r) := by
  simp only [spellAux]
  rw [if_neg (by omega), if_neg (by omega), if_neg (by omega)]

theorem boundaryFor_thousand (o : Nat) (h1 : 3 ≤ o) (h2 : o ≤ 5) :
    boundaryFor o = some 3 := by
  unfold boundaryFor
  rw [if_pos ⟨h1, h2⟩]

theorem boundaryFor_million (o : Nat) (h1 : 6 ≤ o) (h2 : o ≤ 8) :
    boundaryFor o = some 6 := by
  unfold boundaryFor
  rw [if_neg (by omega), if_pos ⟨h1, h2⟩]

theorem agreeB_spec (n : Nat) (h : agreeB n = true) :
    ∃ s p, spellAux 8 n = some s ∧ endLettersAux 3 n = some p ∧
      s.data ≠ [] ∧ strFirst s = p.1 ∧ strLast s = p.2 := by
  unfold agreeB at h
  cases hs : spellAux 8 n with
  | none => rw [hs] at h; cases hp : endLettersAux 3 n <;> rw [hp] at h <;> simp at h
  | some s =>
    cases hp : endLettersAux 3 n with
    | none => rw [hs, hp] at h; simp at h
    | some p =>
      rw [hs, hp] at h
      simp only [Bool.and_eq_true, beq_iff_eq, Bool.not_eq_true'] at h
      refine ⟨s, p, rfl, rfl, ?_, h.1.2, h.2⟩
      cases sd : s.data with
      | nil => rw [sd] at h; simp at h
      | cons a l => simp

theorem goodPair_spec (o : Option (Char × Char)) (h : goodPair o = true) :
    ∃ p, o = some p ∧ p.1.isLower = true ∧ p.2.isLower = true := by
  cases o with
  | none => simp [goodPair] at h
  | some p =>
    unfold goodPair at h
    simp only [Bool.and_eq_true] at h
    exact ⟨p, rfl, h.1, h.2⟩

theorem pow_numDigits_le (n : Nat) (h : n ≠ 0) : 10 ^ (numDigits n - 1) ≤ n := by
  rw [numDigits_eq_log]
  simpa using Nat.pow_log_le_self 10 h

/-- Specialisation of the `n ≥ 1000` unfolding to the wrapper fuel. -/
theorem end_letters_big (n : Nat) (h : 1000 ≤ n) :
    end_letters n =
      match endLettersAux 2 (n / 10 ^ (numDigits n - min 3 (numDigits n - 3))) with
      | none => none
      | some pl =>
        if n % 1000 = 0 then
          some (pl.1, if 1000 ≤ n ∧ n ≤ 999999 then 'd' else 'n')
        else
          match endLettersAux 2 (n % 1000) with
          | none => none
          | some ph => some (pl.1, ph.2) := by
  unfold end_letters
  exact endLettersAux_big 2 n h

/-- Specialisation of the `n ≥ 1000` unfolding to the wrapper fuel. -/
theorem spell_big (n : Nat) (h : 1000 ≤ n) :
    spell n =
      match boundaryFor (numDigits n - 1) with
      | none => none
      | some b =>
        match spellAux 7 (n / 10 ^ b) with
        | none => none
        | some ls =>
          if n % 10 ^ b = 0 then some (ls ++ "-" ++ scaleName b)
          else
            match spellAux 7 (n % 10 ^ b) with
            | none => none
            | some r => some (ls ++ "-" ++ scaleName b ++ " " ++ r) := by
  unfold spell
  exact spellAux_big 7 n h

/-- The bound on the `leading` argument of the recursive call made by
`end_letters` for `n ≥ 1000`: it has at most 3 digits. -/
theorem leading_lt (n : Nat) (h : 1000 ≤ n) :
    n / 10 ^ (numDigits n - min 3 (numDigits n - 3)) < 1000 := by
  have hnd : n < 10 ^ numDigits n := lt_pow_numDigits n
  have hd4 : 4 ≤ numDigits n := by
    have := numDigits_ge n 3 (by norm_num; omega)
    omega
  have hpow : 10 ^ numDigits n ≤
      10 ^ (numDigits n - min 3 (numDigits n - 3)) * 1000 := by
    have h3 : (1000 : Nat) = 10 ^ 3 := by norm_num
    rw [h3, ← pow_add]
    exact Nat.pow_le_pow_right (by omega) (by omega)
  exact Nat.div_lt_of_lt_mul (by omega)

/-- `end_letters` always succeeds, returning two lowercase letters. -/
theorem end_letters_good (n : Nat) : goodPair (end_letters n) = true := by
  by_cases h : n < 1000
  · unfold end_letters
    rw [el_fuel_23 n h]
    exact el_small_good n h
  · push_neg at h
    rw [end_letters_big n h]
    obtain ⟨pl, hpl, hpl1, hpl2⟩ :=
      goodPair_spec _ (el_small_good _ (leading_lt n h))
    simp only [hpl]
    by_cases hz : n % 1000 = 0
    · rw [if_pos hz]
      unfold goodPair
      rw [Bool.and_eq_true, hpl1]
      constructor
      · rfl
      · split <;> rfl
    · rw [if_neg hz]
      have hh : n % 1000 < 1000 := Nat.mod_lt _ (by omega)
      obtain ⟨ph, hph, hph1, hph2⟩ := goodPair_spec _ (el_small_good _ hh)
      simp only [hph]
      unfold goodPair
      rw [Bool.and_eq_true, hpl1, hph2]
      exact ⟨rfl, rfl⟩

theorem append_data_ne (s t : String) (h : s.data ≠ []) : (s ++ t).data ≠ [] := by
  rw [String.data_append]
  intro hc
  exact h (List.append_eq_nil.mp hc).1

/-- Agreement of the code's edge letters with the spec's spelling on
`1000 ≤ n ≤ 999999`: both sides decompose at the thousand boundary with
leading group `n / 1000` and remainder `n % 1000`. -/
theorem agree_mid (n : Nat) (h1 : 1000 ≤ n) (h2 : n ≤ 999999) :
    ∀ s, spell n = some s → end_letters n = some (strFirst s, strLast s) := by
  intro s hs
  have hd4 : 4 ≤ numDigits n := by
    have := numDigits_ge n 3 (by norm_num; omega)
    omega
  have hd6 : numDigits n ≤ 6 := by
    by_contra hc
    push_neg at hc
    have hle := pow_numDigits_le n (by omega)
    have hmono : (10 : Nat) ^ 6 ≤ 10 ^ (numDigits n - 1) :=
      Nat.pow_le_pow_right (by omega) (by omega)
    norm_num at hmono
    omega
  have he : numDigits n - min 3 (numDigits n - 3) = 3 := by omega
  have hq : n / 1000 < 1000 := by omega
  have hq1 : n % 1000 < 1000 := by omega
  obtain ⟨s1, p1, hs1, hp1, hne1, hf1, hl1⟩ := agreeB_spec _ (agree_small _ hq)
  have hs1g : spellAux 7 (n / 1000) = some s1 := by
    rw [spell_fuel_78 _ hq]; exact hs1
  have hp1g : endLettersAux 2 (n / 1000) = some p1 := by
    rw [← el_fuel_23 _ hq]; exact hp1
  have hb : boundaryFor (numDigits n - 1) = some 3 :=
    boundaryFor_thousand _ (by omega) (by omega)
  have h103 : (10 : Nat) ^ 3 = 1000 := by norm_num
  rw [spell_big n h1] at hs
  simp only [hb, h103, hs1g] at hs
  rw [end_letters_big n h1]
  simp only [he, h103, hp1g]
  by_cases hz : n % 1000 = 0
  · rw [if_pos hz] at hs ⊢
    injection hs with hs
    subst hs
    rw [if_pos ⟨h1, h2⟩]
    have hF : strFirst (s1 ++ "-" ++ scaleName 3) = p1.1 := by
      rw [strFirst_append _ _ (append_data_ne _ _ hne1), strFirst_append _ _ hne1, hf1]
    have hL : strLast (s1 ++ "-" ++ scaleName 3) = 'd' := by
      rw [strLast_append _ _ (by decide)]
      decide
    rw [hF, hL]
  · rw [if_neg hz] at hs ⊢
    obtain ⟨s2, p2, hs2, hp2, hne2, hf2, hl2⟩ := agreeB_spec _ (agree_small _ hq1)
    have hs2g : spellAux 7 (n % 1000) = some s2 := by
      rw [spell_fuel_78 _ hq1]; exact hs2
    have hp2g : endLettersAux 2 (n % 1000) = some p2 := by
      rw [← el_fuel_23 _ hq1]; exact hp2
    simp only [hs2g] at hs
    injection hs with hs
    subst hs
    simp only [hp2g]
    have hF : strFirst (s1 ++ "-" ++ scaleName 3 ++ " " ++ s2) = p1.1 := by
      rw [strFirst_append _ _ (append_data_ne _ _ (append_data_ne _ _ (append_data_ne _ _ hne1))),
        strFirst_append _ _ (append_data_ne _ _ (append_data_ne _ _ hne1)),
        strFirst_append _ _ (append_data_ne _ _ hne1),
        strFirst_append _ _ hne1, hf1]
    have hL : strLast (s1 ++ "-" ++ scaleName 3 ++ " " ++ s2) = p2.2 := by
      rw [strLast_append _ _ hne2, hl2]
    rw [hF, hL]

/-- Agreement of the code's edge letters with the spec's spelling on
`10^6 ≤ n < 1001000` (the top of the agreement range: at `n = 1001000`
the two sides diverge). -/
theorem agree_top (n : Nat) (h1 : 1000000 ≤ n) (h2 : n < 1001000) :
    ∀ s, spell n = some s → end_letters n = some (strFirst s, strLast s) := by
  intro s hs
  have hd : numDigits n = 7 :=
    numDigits_eq 6 n (by norm_num; omega) (by norm_num; omega)
  have he : numDigits n - min 3 (numDigits n - 3) = 4 := by omega
  have h104 : (10 : Nat) ^ 4 = 10000 := by norm_num
  have h106 : (10 : Nat) ^ 6 = 1000000 := by norm_num
  have hlead4 : n / 10000 = 100 := by omega
  have hlead6 : n / 1000000 = 1 := by omega
  have hb : boundaryFor (numDigits n - 1) = some 6 := by
    rw [hd]
    exact boundaryFor_million 6 (by omega) (by omega)
  have hone : spellAux 7 1 = some "one" := by decide
  have h100 : endLettersAux 2 100 = some ('o', 'd') := by decide
  rw [spell_big n (by omega)] at hs
  simp only [hb, h106, hlead6, hone] at hs
  rw [end_letters_big n (by omega)]
  simp only [he, h104, hlead4, h100]
  have hmod : n % 1000000 = n % 1000 := by omega
  rw [hmod] at hs
  by_cases hz : n % 1000 = 0
  · rw [if_pos hz] at hs ⊢
    injection hs with hs
    subst hs
    rw [if_neg (by omega : ¬(1000 ≤ n ∧ n ≤ 999999))]
    have hF : strFirst ("one" ++ "-" ++ scaleName 6) = 'o' := by decide
    have hL : strLast ("one" ++ "-" ++ scaleName 6) = 'n' := by decide
    rw [hF, hL]
  · rw [if_neg hz] at hs ⊢
    have hq1 : n % 1000 < 1000 := by omega
    obtain ⟨s2, p2, hs2, hp2, hne2, hf2, hl2⟩ := agreeB_spec _ (agree_small _ hq1)
    have hs2g : spellAux 7 (n % 1000) = some s2 := by
      rw [spell_fuel_78 _ hq1]; exact hs2
    have hp2g : endLettersAux 2 (n % 1000) = some p2 := by
      rw [← el_fuel_23 _ hq1]; exact hp2
    simp only [hs2g] at hs
    injection hs with hs
    subst hs
    simp only [hp2g]
    have hF : strFirst ("one" ++ "-" ++ scaleName 6 ++ " " ++ s2) = 'o' := by
      rw [strFirst_append _ _ (append_data_ne _ _ (append_data_ne _ _ (append_data_ne _ _ (by decide)))),
        strFirst_append _ _ (append_data_ne _ _ (append_data_ne _ _ (by decide))),
        strFirst_append _ _ (append_data_ne _ _ (by decide)),
        strFirst_append _ _ (by decide)]
      decide
    have hL : strLast ("one" ++ "-" ++ scaleName 6 ++ " " ++ s2) = p2.2 := by
      rw [strLast_append _ _ hne2, hl2]
    rw [hF, hL]

/-- Full agreement range: the code's `end_letters` matches the first
and last letter of the spec's `spell` for every `n < 1001000`. -/
theorem agree_below (n : Nat) (h : n < 1001000) :
    ∀ s, spell n = some s → end_letters n = some (strFirst s, strLast s) := by
  intro s hs
  by_cases hsm : n < 1000
  · obtain ⟨s1, p1, hs1, hp1, hne1, hf1, hl1⟩ := agreeB_spec _ (agree_small _ hsm)
    unfold spell at hs
    rw [hs1] at hs
    injection hs with hs
    subst hs
    unfold end_letters
    rw [hp1, hf1, hl1]
  · by_cases hmid : n ≤ 999999
    · exact agree_mid n (by omega) hmid s hs
    · exact agree_top n (by omega) (by omega) s hs

/-! ## Window lemmas -/

theorem seedLoop_length : ∀ (k : Nat) (values : List Nat),
    (seedLoop values k).length = values.length + k := by
  intro k
  induction k with
  | zero => intro values; rfl
  | succ k ih =>
    intro values
    rw [seedLoop, ih]
    simp
    omega

theorem seed_length (L : Int) (h : 1 ≤ L) : (seed L).length = L.toNat := by
  unfold seed
  by_cases h1 : L = 1
  · rw [if_pos h1, h1]; rfl
  · rw [if_neg h1]
    by_cases h2 : L = 2
    · rw [if_pos h2, h2]; rfl
    · rw [if_neg h2, seedLoop_length]
      simp
      omega

theorem seed_nonpos (L : Int) (h : L ≤ 0) : seed L = [0, 1] := by
  unfold seed
  rw [if_neg (by omega), if_neg (by omega), Int.toNat_of_nonpos (by omega)]
  rfl

/-- The last two elements of a list of length at least 2. -/
theorem lastTwo_spec : ∀ (l : List Nat), 2 ≤ l.length →
    ∃ a b, l.drop (l.length - 2) = [a, b] ∧
      l.get? (l.length - 2) = some a ∧ l.get? (l.length - 1) = some b := by
  intro l
  induction l with
  | nil => intro h; simp at h
  | cons x xs ih =>
    intro h
    by_cases hxs : 2 ≤ xs.length
    · obtain ⟨a, b, h1, h2, h3⟩ := ih hxs
      have e1 : (x :: xs).length - 2 = (xs.length - 2) + 1 := by
        simp only [List.length_cons]; omega
      have e2 : (x :: xs).length - 1 = (xs.length - 1) + 1 := by
        simp only [List.length_cons]; omega
      exact ⟨a, b, by rw [e1, List.drop_succ_cons]; exact h1,
        by rw [e1, List.get?_cons_succ]; exact h2,
        by rw [e2, List.get?_cons_succ]; exact h3⟩
    · cases xs with
      | nil => simp at h
      | cons b t =>
        cases t with
        | nil => exact ⟨x, b, rfl, rfl, rfl⟩
        | cons c u => exfalso; simp only [List.length_cons] at hxs; omega

theorem fibNext_eq (w : List Nat) (h : 2 ≤ w.length) :
    ∃ a b, w.get? (w.length - 2) = some a ∧ w.get? (w.length - 1) = some b ∧
      fibNext w = some (w.drop 1 ++ [a + b]) := by
  obtain ⟨a, b, _, h2, h3⟩ := lastTwo_spec w h
  refine ⟨a, b, h2, h3, ?_⟩
  unfold fibNext negIdx
  rw [if_pos ⟨by omega, by omega⟩, if_pos ⟨by omega, by omega⟩]
  simp only [h2, h3]

theorem fibNext_some_len (w w' : List Nat) (h : fibNext w = some w') :
    2 ≤ w.length ∧ w'.length = w.length := by
  have hlen : 2 ≤ w.length := by
    by_contra hc
    push_neg at hc
    unfold fibNext negIdx at h
    rw [if_neg (by omega)] at h
    simp at h
  obtain ⟨a, b, _, _, hf⟩ := fibNext_eq w hlen
  rw [hf] at h
  injection h with h
  subst h
  constructor
  · exact hlen
  · simp
    omega

theorem getD_append_lt (v : List Nat) (x : Nat) (j : Nat) (h : j < v.length) :
    (v ++ [x]).getD j 0 = v.getD j 0 := by
  rw [List.getD_eq_getElem?_getD, List.getD_eq_getElem?_getD,
    List.getElem?_append_left h]

theorem getD_append_self (v : List Nat) (x : Nat) :
    (v ++ [x]).getD v.length 0 = x := by
  rw [List.getD_eq_getElem?_getD, List.getElem?_concat_length]
  rfl

theorem getD_drop_one (w : List Nat) (j : Nat) :
    (w.drop 1).getD j 0 = w.getD (j + 1) 0 := by
  rw [List.getD_eq_getElem?_getD, List.getD_eq_getElem?_getD,
    List.getElem?_drop]
  rw [Nat.add_comm]

theorem get?_getD (w : List Nat) (j a : Nat) (h : w.get? j = some a) :
    w.getD j 0 = a := by
  rw [List.getD_eq_get?, h]
  rfl

theorem fibInv_fibNext (w w' : List Nat) (hw : fibInv w)
    (h : fibNext w = some w') : fibInv w' := by
  obtain ⟨hlen, hlen'⟩ := fibNext_some_len w w' h
  obtain ⟨a, b, h2, h3, hf⟩ := fibNext_eq w hlen
  rw [hf] at h
  injection h with h
  subst h
  intro i hi
  have hiw : i + 2 < (w.drop 1 ++ [a + b]).length := hi
  rw [hlen'] at hi
  have hlen1 : (w.drop 1).length = w.length - 1 := by simp
  by_cases hend : i + 2 < w.length - 1
  · rw [getD_append_lt _ _ _ (by omega), getD_append_lt _ _ _ (by omega),
      getD_append_lt _ _ _ (by omega), getD_drop_one, getD_drop_one, getD_drop_one]
    exact hw (i + 1) (by omega)
  · have hieq : i + 2 = w.length - 1 := by omega
    rw [show i + 2 = (w.drop 1).length from by omega]
    rw [getD_append_self, getD_append_lt _ _ _ (by omega),
      getD_append_lt _ _ _ (by omega), getD_drop_one, getD_drop_one]
    have ha : w.getD (w.length - 2) 0 = a := get?_getD w _ a h2
    have hb : w.getD (w.length - 1) 0 = b := get?_getD w _ b h3
    rw [show i + 1 + 1 = w.length - 1 from by omega,
      show i + 1 = w.length - 2 from by omega, ha, hb]

theorem fibInv_append_sum (v : List Nat) (hlen : 2 ≤ v.length) (hv : fibInv v) :
    fibInv (v ++ [(v.drop (v.length - 2)).sum]) := by
  obtain ⟨a, b, h1, h2, h3⟩ := lastTwo_spec v hlen
  rw [h1]
  have hsum : ([a, b] : List Nat).sum = a + b := by simp
  rw [hsum]
  intro i hi
  simp only [List.length_append, List.length_cons, List.length_nil] at hi
  by_cases hend : i + 2 < v.length
  · rw [getD_append_lt _ _ _ (by omega), getD_append_lt _ _ _ (by omega),
      getD_append_lt _ _ _ (by omega)]
    exact hv i hend
  · have hieq : i + 2 = v.length := by omega
    rw [show i + 2 = v.length from hieq, getD_append_self,
      getD_append_lt _ _ _ (by omega), getD_append_lt _ _ _ (by omega)]
    have ha : v.getD (v.length - 2) 0 = a := get?_getD v _ a h2
    have hb : v.getD (v.length - 1) 0 = b := get?_getD v _ b h3
    rw [show i + 1 = v.length - 1 from by omega,
      show i = v.length - 2 from by omega, ha, hb]

theorem fibInv_seedLoop : ∀ (k : Nat) (values : List Nat),
    2 ≤ values.length → fibInv values → fibInv (seedLoop values k) := by
  intro k
  induction k with
  | zero => intro values _ hv; exact hv
  | succ k ih =>
    intro values hlen hv
    rw [seedLoop]
    exact ih _ (by simp; omega) (fibInv_append_sum values hlen hv)

theorem fibInv_seed (L : Int) : fibInv (seed L) := by
  unfold seed
  by_cases h1 : L = 1
  · rw [if_pos h1]
    intro i hi
    simp only [List.length_cons, List.length_nil] at hi
    omega
  · rw [if_neg h1]
    by_cases h2 : L = 2
    · rw [if_pos h2]
      intro i hi
      simp only [List.length_cons, List.length_nil] at hi
      omega
    · rw [if_neg h2]
      refine fibInv_seedLoop _ [0, 1] (by simp) ?_
      intro i hi
      simp only [List.length_cons, List.length_nil] at hi
      omega

theorem fibInv_advanceN : ∀ (k : Nat) (w w' : List Nat), fibInv w →
    advanceN w k = some w' → fibInv w' := by
  intro k
  induction k with
  | zero =>
    intro w w' hw h
    injection h with h
    subst h
    exact hw
  | succ k ih =>
    intro w w' hw h
    rw [advanceN] at h
    cases hf : fibNext w with
    | none => rw [hf] at h; simp at h
    | some w2 =>
      rw [hf] at h
      exact ih w2 w' (fibInv_fibNext w w2 hw hf) h

/-! ## Ascending windows and the window maximum -/

theorem tail_getLast (l : List Nat) (h : 2 ≤ l.length) :
    l.tail.getLast? = l.getLast? := by
  cases l with
  | nil => simp at h
  | cons x xs =>
    cases xs with
    | nil => simp at h
    | cons b t => rw [List.getLast?_cons_cons]; rfl

theorem max_asc : ∀ (l : List Nat), l.Chain' (· ≤ ·) → l.max? = l.getLast? := by
  intro l
  induction l with
  | nil => intro _; rfl
  | cons x xs ih =>
    intro hc
    cases xs with
    | nil => rfl
    | cons y t =>
      obtain ⟨hxy, hc2⟩ := List.chain'_cons.mp hc
      rw [List.getLast?_cons_cons, ← ih hc2]
      rw [List.max?_cons', List.max?_cons']
      simp only [List.foldl_cons]
      rw [Nat.max_eq_right hxy]

theorem asc_seedLoop : ∀ (k : Nat) (values : List Nat), 2 ≤ values.length →
    values.Chain' (· ≤ ·) → (seedLoop values k).Chain' (· ≤ ·) := by
  intro k
  induction k with
  | zero => intro values _ hv; exact hv
  | succ k ih =>
    intro values hlen hv
    rw [seedLoop]
    refine ih _ (by simp; omega) ?_
    obtain ⟨a, b, h1, h2, h3⟩ := lastTwo_spec values hlen
    rw [h1, show ([a, b] : List Nat).sum = a + b from by simp]
    rw [List.chain'_append]
    refine ⟨hv, by simp, ?_⟩
    intro x hx y hy
    rw [List.getLast?_eq_get?, h3] at hx
    simp only [Option.mem_def, Option.some.injEq] at hx
    simp only [List.head?_cons, Option.mem_def, Option.some.injEq] at hy
    omega

theorem asc_seed (L : Int) : (seed L).Chain' (· ≤ ·) := by
  unfold seed
  by_cases h1 : L = 1
  · rw [if_pos h1]; simp
  · rw [if_neg h1]
    by_cases h2 : L = 2
    · rw [if_pos h2]; simp
    · rw [if_neg h2]
      exact asc_seedLoop _ [0, 1] (by simp) (by simp)

theorem asc_fibNext (w w' : List Nat) (hw : w.Chain' (· ≤ ·))
    (h : fibNext w = some w') :
    w'.Chain' (· ≤ ·) ∧ w.max?.getD 0 ≤ w'.max?.getD 0 := by
  obtain ⟨hlen, _⟩ := fibNext_some_len w w' h
  obtain ⟨a, b, h2, h3, hf⟩ := fibNext_eq w hlen
  rw [hf] at h
  injection h with h
  subst h
  have hasc : (w.drop 1 ++ [a + b]).Chain' (· ≤ ·) := by
    rw [List.chain'_append]
    refine ⟨by rw [List.drop_one]; exact hw.tail, by simp, ?_⟩
    intro x hx y hy
    rw [List.drop_one, tail_getLast w hlen, List.getLast?_eq_get?, h3] at hx
    simp only [Option.mem_def, Option.some.injEq] at hx
    simp only [List.head?_cons, Option.mem_def, Option.some.injEq] at hy
    omega
  refine ⟨hasc, ?_⟩
  rw [max_asc w hw, max_asc _ hasc, List.getLast?_eq_get?, h3,
    List.getLast?_concat]
  simp

theorem asc_advanceN : ∀ (k : Nat) (w w' : List Nat), w.Chain' (· ≤ ·) →
    advanceN w k = some w' → w'.Chain' (· ≤ ·) := by
  intro k
  induction k with
  | zero =>
    intro w w' hw h
    injection h with h
    subst h
    exact hw
  | succ k ih =>
    intro w w' hw h
    rw [advanceN] at h
    cases hf : fibNext w with
    | none => rw [hf] at h; simp at h
    | some w2 =>
      rw [hf] at h
      exact ih w2 w' (asc_fibNext w w2 hw hf).1 h

/-- In any successful step, the recorded `highest` is the maximum of
the window the step examined. -/
theorem findStep_highest (st st' : SearchState) (h : findStep st = some st') :
    st.window.max? = some st'.highest := by
  unfold findStep at h
  cases hm : st.window.max? with
  | none => rw [hm] at h; simp at h
  | some hi =>
    rw [hm] at h
    cases hl : lexical st.window with
    | none => rw [hl] at h; simp at h
    | some b =>
      rw [hl] at h
      cases hf : fibNext st.window with
      | none => rw [hf] at h; simp at h
      | some w2 =>
        rw [hf] at h
        injection h with h
        subst h
        rfl

/-! ## Lexical-predicate lemmas -/

theorem mapEnds_length : ∀ (w : List Nat) (ends : List (Char × Char)),
    mapEnds w = some ends → ends.length = w.length := by
  intro w
  induction w with
  | nil =>
    intro ends h
    injection h with h
    subst h
    rfl
  | cons x xs ih =>
    intro ends h
    rw [mapEnds] at h
    cases he : end_letters x with
    | none => rw [he] at h; simp at h
    | some p =>
      rw [he] at h
      cases hm : mapEnds xs with
      | none => rw [hm] at h; simp at h
      | some ps =>
        rw [hm] at h
        injection h with h
        subst h
        simp only [List.length_cons, ih ps hm]

theorem mapEnds_get : ∀ (w : List Nat) (ends : List (Char × Char)),
    mapEnds w = some ends → ∀ i, i < w.length →
      end_letters (w.getD i 0) = some (ends.getD i ('?', '?')) := by
  intro w
  induction w with
  | nil => intro ends _ i hi; simp at hi
  | cons x xs ih =>
    intro ends h i hi
    rw [mapEnds] at h
    cases he : end_letters x with
    | none => rw [he] at h; simp at h
    | some p =>
      rw [he] at h
      cases hm : mapEnds xs with
      | none => rw [hm] at h; simp at h
      | some ps =>
        rw [hm] at h
        injection h with h
        subst h
        cases i with
        | zero => exact he
        | succ i =>
          simp only [List.getD_cons_succ]
          exact ih ps hm i (by simp only [List.length_cons] at hi; omega)

theorem mapEnds_total : ∀ (w : List Nat), ∃ ends, mapEnds w = some ends := by
  intro w
  induction w with
  | nil => exact ⟨[], rfl⟩
  | cons x xs ih =>
    obtain ⟨ends, he⟩ := ih
    obtain ⟨p, hp, _, _⟩ := goodPair_spec _ (end_letters_good x)
    refine ⟨p :: ends, ?_⟩
    rw [mapEnds, hp, he]

/-- `lexical` always succeeds, and its Boolean value means exactly the
adjacent edge-letter chaining condition. -/
theorem lexical_some (w : List Nat) :
    ∃ b, lexical w = some b ∧
      (b = true ↔ ∀ i, i + 1 < w.length →
        ∃ p q, end_letters (w.getD i 0) = some p ∧
          end_letters (w.getD (i + 1) 0) = some q ∧ p.2 = q.1) := by
  obtain ⟨ends, he⟩ := mapEnds_total w
  have hlen := mapEnds_length w ends he
  refine ⟨_, by rw [lexical, he], ?_⟩
  rw [List.all_eq_true]
  constructor
  · intro hall i hi
    have hmem : i ∈ List.range (ends.length - 1) := List.mem_range.mpr (by omega)
    have := hall i hmem
    rw [beq_iff_eq] at this
    exact ⟨ends.getD i ('?', '?'), ends.getD (i + 1) ('?', '?'),
      mapEnds_get w ends he i (by omega),
      mapEnds_get w ends he (i + 1) (by omega), this⟩
  · intro hchain i hmem
    have hi : i < ends.length - 1 := List.mem_range.mp hmem
    obtain ⟨p, q, hp, hq, hpq⟩ := hchain i (by omega)
    have hp2 := mapEnds_get w ends he i (by omega)
    have hq2 := mapEnds_get w ends he (i + 1) (by omega)
    rw [hp] at hp2
    rw [hq] at hq2
    injection hp2 with hp2
    injection hq2 with hq2
    rw [beq_iff_eq, ← hp2, ← hq2]
    exact hpq

theorem lexical_singleton (x : Nat) : lexical [x] = some true := by
  obtain ⟨p, hp, _, _⟩ := goodPair_spec _ (end_letters_good x)
  rw [lexical, mapEnds, hp, mapEnds]
  rfl

/-! ## Claim theorems -/

/-- Claim C1, as stated, is false on the code: at `n = 1001000` the
spec's spelling is `"one-million one-thousand"` (first letter 'o', last
letter 'd'), but `end_letters` returns `('o', 'n')`: the code derives
the last letter only from `n % 1000` and the crude range test
`1000 ≤ n ≤ 999999`, ignoring the scale of the trailing nonzero group. -/
theorem claim_C1_counterexample :
    spell 1001000 = some "one-million one-thousand" ∧
      end_letters 1001000 = some ('o', 'n') ∧
      (strFirst "one-million one-thousand", strLast "one-million one-thousand") ≠
        (('o', 'n') : Char × Char) :=
  ⟨by decide, by decide, by decide⟩

/-- Claim C1 (amended): for every `n < 1001000` (the least
counterexample), `end_letters n` is exactly the pair of the first and
last letters of the canonical spelling `spell n`. -/
theorem claim_C1_theorem (n : Nat) (h : n < 1001000) :
    ∀ s, spell n = some s → end_letters n = some (strFirst s, strLast s) :=
  agree_below n h

theorem claim_C1_witness :
    end_letters 12345 = some
      (strFirst "twelve-thousand three-hundred forty-five",
        strLast "twelve-thousand three-hundred forty-five") :=
  claim_C1_theorem 12345 (by decide) _ (by decide)

/-- Claim C2, as stated, is false on the code: for `10 ^ 15`, whose
order of magnitude (15) is beyond the largest configured scale name
(trillion, order 12, covering orders up to 14; the spec-modelled
`spell` reports the error there), the code's edge-letter computation
does not fail: it returns the normal value `('o', 'n')`. -/
theorem claim_C2_counterexample :
    end_letters (10 ^ 15) = some ('o', 'n') ∧ spell (10 ^ 15) = none :=
  ⟨by decide, by decide⟩

/-- Claim C2 (amended): for every integer whose order of magnitude
exceeds the largest configured scale name (16 or more digits), the
code's edge-letter computation returns a normal result rather than
failing: there is no magnitude-overflow error in the code. -/
theorem claim_C2_theorem (n : Nat) (h : 16 ≤ numDigits n) :
    ∃ a b, end_letters n = some (a, b) := by
  obtain ⟨p, hp, _, _⟩ := goodPair_spec _ (end_letters_good n)
  exact ⟨p.1, p.2, by rw [hp]⟩

theorem claim_C2_witness : ∃ a b, end_letters (10 ^ 15) = some (a, b) :=
  claim_C2_theorem _ (by decide)

/-- Claim C3, as stated, is false on the code: `seed` does not fail for
requested lengths `≤ 0`; it silently returns the two-element window
`[0, 1]` (the `while` loop guard is immediately false). -/
theorem claim_C3_counterexample :
    seed 0 = [0, 1] ∧ seed (-3) = [0, 1] ∧ (seed 0).length ≠ 0 :=
  ⟨by decide, by decide, by decide⟩

/-- Claim C3 (amended): `seed` never raises for any requested length:
for length `≤ 0` it returns the window `[0, 1]` instead of failing, and
for length `≥ 1` it returns a window of exactly the requested length. -/
theorem claim_C3_theorem (L : Int) :
    (L ≤ 0 → seed L = [0, 1]) ∧ (1 ≤ L → (seed L).length = L.toNat) :=
  ⟨seed_nonpos L, seed_length L⟩

theorem claim_C3_witness :
    seed (-5) = [0, 1] ∧ (seed 7).length = (7 : Int).toNat :=
  ⟨(claim_C3_theorem (-5)).1 (by decide), (claim_C3_theorem 7).2 (by decide)⟩

/-- Claim C4: advancing never mutates the input window.  In the heap
model of `FibSub.__next__` (which re-binds `self._subseq` to the list
freshly built by `self._subseq[1:] + [value]`), a successful step
leaves the cell holding the input window untouched and returns the
address of a newly allocated cell holding exactly the advanced
window. -/
theorem claim_C4_theorem (h : PyHeap) (a : Nat) (h2 : PyHeap) (a2 : Nat)
    (hstep : nextAlloc h a = some (h2, a2)) :
    readCell h2 a = readCell h a ∧ a2 = h.cells.length ∧
      ∀ w, readCell h a = some w → readCell h2 a2 = fibNext w := by
  unfold nextAlloc at hstep
  cases hr : readCell h a with
  | none => rw [hr] at hstep; simp at hstep
  | some w =>
    simp only [hr] at hstep
    cases hx : negIdx w 2 with
    | none => simp [hx] at hstep
    | some x =>
      cases hy : negIdx w 1 with
      | none => simp [hx, hy] at hstep
      | some y =>
        simp only [hx, hy] at hstep
        injection hstep with hstep
        injection hstep with hh2 ha2
        subst hh2
        subst ha2
        have halt : a < h.cells.length := by
          by_contra hc
          push_neg at hc
          rw [readCell, List.get?_eq_none.mpr hc] at hr
          simp at hr
        refine ⟨?_, rfl, ?_⟩
        · show (h.cells ++ [w.drop 1 ++ [x + y]]).get? a = some w
          rw [List.get?_append halt]
          exact hr
        · intro w2 hw2
          injection hw2 with hw2
          subst hw2
          show (h.cells ++ [w.drop 1 ++ [x + y]]).get? h.cells.length = fibNext w
          rw [List.get?_concat_length]
          simp only [fibNext, hx, hy]

theorem claim_C4_witness :
    readCell ⟨[[0, 1, 1], [1, 1, 2]]⟩ 0 = readCell ⟨[[0, 1, 1]]⟩ 0 ∧
      (1 : Nat) = (PyHeap.mk [[0, 1, 1]]).cells.length ∧
      ∀ w, readCell ⟨[[0, 1, 1]]⟩ 0 = some w →
        readCell ⟨[[0, 1, 1], [1, 1, 2]]⟩ 1 = fibNext w :=
  claim_C4_theorem ⟨[[0, 1, 1]]⟩ 0 ⟨[[0, 1, 1], [1, 1, 2]]⟩ 1 (by decide)

/-- Claim C5, as stated, is false on the code: for the validly seeded
window of length 1, the advance operation raises (`_subseq[-2]` is an
out-of-range index for a one-element list). -/
theorem claim_C5_counterexample :
    seed 1 = [0] ∧ fibNext (seed 1) = none :=
  ⟨by decide, by decide⟩

/-- Claim C5 (amended): for every window of length `L ≥ 2`, the advance
operation succeeds, dropping the oldest element and appending
`window[-2] + window[-1]`, and the resulting window again has length
exactly `L`; it raises an `IndexError` for length-1 windows. -/
theorem claim_C5_theorem (w : List Nat) (h : 2 ≤ w.length) :
    ∃ w', fibNext w = some w' ∧ w'.length = w.length ∧
      w' = w.drop 1 ++ [w.getD (w.length - 2) 0 + w.getD (w.length - 1) 0] := by
  obtain ⟨a, b, h2, h3, hf⟩ := fibNext_eq w h
  refine ⟨w.drop 1 ++ [a + b], hf, by simp; omega, ?_⟩
  rw [get?_getD w _ a h2, get?_getD w _ b h3]

theorem claim_C5_witness :
    ∃ w', fibNext [0, 1] = some w' ∧ w'.length = ([0, 1] : List Nat).length ∧
      w' = ([0, 1] : List Nat).drop 1 ++
        [([0, 1] : List Nat).getD (([0, 1] : List Nat).length - 2) 0 +
          ([0, 1] : List Nat).getD (([0, 1] : List Nat).length - 1) 0] :=
  claim_C5_theorem [0, 1] (by decide)

/-- Claim C6: every window reachable from `seed L` by advances
satisfies the Fibonacci recurrence invariant: each element beyond
index 1 is the sum of the two preceding elements. -/
theorem claim_C6_theorem (L : Int) (hL : 1 ≤ L) (k : Nat) (w : List Nat)
    (h : advanceN (seed L) k = some w) : fibInv w :=
  fibInv_advanceN k (seed L) w (fibInv_seed L) h

theorem claim_C6_witness : fibInv [1, 1, 2, 3] :=
  claim_C6_theorem 4 (by decide) 1 [1, 1, 2, 3] (by decide)

/-- Claim C7: the search with `max_num = 1`, `length = 3`, no timeout,
started from the standard seed `[0, 1, 1]`, terminates normally (fuel 7
suffices) with exactly the single match `[5, 8, 13]`, and that match is
the first lexical triple in the exhaustive forward scan: the windows at
steps 0–4 are all non-lexical and the window at step 5 is `[5, 8, 13]`. -/
theorem claim_C7_theorem :
    findAll 3 (some 1) (fun _ => false) 7 =
        some ⟨[[5, 8, 13]], 13, [8, 13, 21]⟩ ∧
      seed 3 = [0, 1, 1] ∧
      advanceN (seed 3) 5 = some [5, 8, 13] ∧
      Option.bind (advanceN (seed 3) 0) lexical = some false ∧
      Option.bind (advanceN (seed 3) 1) lexical = some false ∧
      Option.bind (advanceN (seed 3) 2) lexical = some false ∧
      Option.bind (advanceN (seed 3) 3) lexical = some false ∧
      Option.bind (advanceN (seed 3) 4) lexical = some false ∧
      Option.bind (advanceN (seed 3) 5) lexical = some true :=
  ⟨by decide, by decide, by decide, by decide, by decide, by decide,
    by decide, by decide, by decide⟩

/-- Claim C8: `lexical` returns true exactly when every adjacent pair
of elements chains by edge letters (`last_letter[i] = first_letter[i+1]`),
every window of length 1 is lexical, and `[5, 8, 13]` is lexical. -/
theorem claim_C8_theorem (w : List Nat) :
    (∀ b, lexical w = some b → (b = true ↔ ∀ i, i + 1 < w.length →
        ∃ p q, end_letters (w.getD i 0) = some p ∧
          end_letters (w.getD (i + 1) 0) = some q ∧ p.2 = q.1)) ∧
      (w.length = 1 → lexical w = some true) ∧
      lexical [5, 8, 13] = some true := by
  obtain ⟨b0, hb0, hiff⟩ := lexical_some w
  refine ⟨?_, ?_, by decide⟩
  · intro b hb
    rw [hb0] at hb
    injection hb with hb
    subst hb
    exact hiff
  · intro hlen
    cases w with
    | nil => simp at hlen
    | cons x xs =>
      cases xs with
      | nil => exact lexical_singleton x
      | cons y t => simp at hlen

theorem claim_C8_witness : lexical [42] = some true :=
  (claim_C8_theorem [42]).2.1 rfl

/-- Claim C9: each successful step of the search loop records the
maximum element of the current window as `highest`, and along any run
from a seeded window of length `L ≥ 2` that maximum never decreases as
the window advances (so the recorded `highest` is monotonically
non-decreasing across successive steps). -/
theorem claim_C9_theorem :
    (∀ st st', findStep st = some st' → st.window.max? = some st'.highest) ∧
      (∀ L : Int, 2 ≤ L → ∀ k w w', advanceN (seed L) k = some w →
        fibNext w = some w' → w.max?.getD 0 ≤ w'.max?.getD 0) := by
  refine ⟨findStep_highest, ?_⟩
  intro L _ k w w' hw hn
  exact (asc_fibNext w w' (asc_advanceN k (seed L) w (asc_seed L) hw) hn).2

theorem claim_C9_witness :
    ([0, 1, 1] : List Nat).max? = some 1 ∧
      ([0, 1, 1] : List Nat).max?.getD 0 ≤ ([1, 1, 2] : List Nat).max?.getD 0 :=
  ⟨claim_C9_theorem.1 ⟨[], 0, [0, 1, 1]⟩ ⟨[], 1, [1, 1, 2]⟩ (by decide),
    claim_C9_theorem.2 3 (by decide) 0 [0, 1, 1] [1, 1, 2] (by decide) (by decide)⟩

/-- Claim C10: the edge-letter computation is total on the non-negative
integers: for every `n` it succeeds (already at recursion fuel 3: one
top-level call plus recursion depth at most 2, since its recursive
arguments are below 1000 and theirs below 100) and returns a pair of
single lowercase letters; it never raises, no matter how large `n`. -/
theorem claim_C10_theorem (n : Nat) :
    ∃ a b, end_letters n = some (a, b) ∧ a.isLower = true ∧ b.isLower = true := by
  obtain ⟨p, hp, h1, h2⟩ := goodPair_spec _ (end_letters_good n)
  exact ⟨p.1, p.2, by rw [hp], h1, h2⟩
